import Mathlib

/-!
Verification of the live post composition synchronization engine of
`src/client/posts/posting/form.ts` (shamichan client).

Shallow embedding conventions:
* JS strings are `List Char` (one entry per code unit; all characters the
  engine manipulates are in the basic plane, where JS code units and Lean
  code points agree).
* JS numbers holding integer counters are `Int` (`bodyLength`) or `Nat`
  (`parsedLines`, which is only ever incremented).
* `send(message.append, code)` / `send(message.backspace, null)` are recorded
  in an outgoing message list `sent`.
* Calls into the view (`FormView.trimInput`, `FormView.terminateLine`) are
  recorded in an effect list `viewEffects`.
-/

namespace Shami

/-- A remote command sent over the connection (`send(message.append, code)` /
`send(message.backspace, null)` at form.ts:108 and form.ts:116). -/
inductive Msg where
  | append (code : Nat)
  | backspace
  deriving DecidableEq, Repr

/-- An instruction issued to the `FormView`:
* `trim n` records `view.trimInput(n)` (form.ts:197-199), which drops the
  last `n` characters from the raw `$input` value;
* `terminate idx raw` records `view.terminateLine(idx)` (form.ts:203-211),
  which runs `parseTerminatedLine` on `raw` (= `model.lastBodyLine()` at call
  time) and targets the placeholder at positional index `idx`
  (`span:nth-child(idx)`) for replacement with the parsed markup. -/
inductive ViewEffect where
  | trim (n : Int)
  | terminate (idx : Nat) (raw : List Char)
  deriving DecidableEq, Repr

/-- The mutable state of `FormModel` (form.ts:53-124):
`line` is `this.state.line` (the committed line), `bodyLength` and
`parsedLines` are the counters of the same names, `body` is `this.body`.
`sent` and `viewEffects` record the emitted commands and view calls. -/
structure FormState where
  line : List Char
  bodyLength : Int
  body : List Char
  parsedLines : Nat
  sent : List Msg
  viewEffects : List ViewEffect
  deriving DecidableEq, Repr

/-- JS `s.charCodeAt(0)` for the strings this engine passes (non-empty,
single-character); `0` stands for the out-of-domain `NaN` of `"".charCodeAt(0)`,
which no caller in the engine can produce. -/
def charCodeAt0 (s : List Char) : Nat :=
  match s with
  | [] => 0
  | c :: _ => c.toNat

/-- `FormView.trimInput(n)` (form.ts:197-199), recorded as an effect. -/
def trimInput (n : Int) (st : FormState) : FormState :=
  {st with viewEffects := st.viewEffects ++ [ViewEffect.trim n]}

/-- `FormModel.commitChar` (form.ts:105-109):
`this.state.line += char; this.bodyLength++; send(message.append, char.charCodeAt(0))`. -/
def commitChar (char : List Char) (st : FormState) : FormState :=
  {st with line := st.line ++ char,
           bodyLength := st.bodyLength + 1,
           sent := st.sent ++ [Msg.append (charCodeAt0 char)]}

/-- `FormModel.commitBackspace` (form.ts:113-117):
`this.state.line = this.state.line.slice(0, -1); this.bodyLength--; send(message.backspace, null)`. -/
def commitBackspace (st : FormState) : FormState :=
  {st with line := st.line.dropLast,
           bodyLength := st.bodyLength - 1,
           sent := st.sent ++ [Msg.backspace]}

/-- The quantity `exceeding = this.bodyLength + lenDiff - 2000` computed by
`FormModel.parseInput` (form.ts:86-87), where `lenDiff = val.length - old.length`
and `old = this.state.line`. -/
def exceedingOf (val : List Char) (st : FormState) : Int :=
  st.bodyLength + ((val.length : Int) - st.line.length) - 2000

/-- The classification half of `FormModel.parseInput` (form.ts:96-101), reached
when `exceeding <= 0`:
* `lenDiff === 1 && val.slice(0, -1) === old` commits the appended character
  `val.slice(-1)`;
* `lenDiff === -1 && old.slice(0, -1) === val` commits a backspace;
* otherwise the edit is irregular and nothing happens. -/
def classifyApply (val : List Char) (st : FormState) : FormState :=
  if (val.length : Int) - st.line.length = 1 ∧ val.dropLast = st.line then
    commitChar (val.drop (val.length - 1)) st
  else if (val.length : Int) - st.line.length = -1 ∧ st.line.dropLast = val then
    commitBackspace st
  else st

/-- `FormModel.parseInput` (form.ts:84-102) with an explicit recursion budget.
When `exceeding > 0` the code calls `this.view.trimInput(exceeding)` and
recurses on `val.slice(0, -exceeding)` (form.ts:91-94); `none` marks a run of
the JS code that never returns (unbounded recursion). -/
def parseInputF : Nat → List Char → FormState → Option FormState
  | 0, _, _ => none
  | fuel + 1, val, st =>
    if 0 < exceedingOf val st then
      parseInputF fuel (val.take (val.length - (exceedingOf val st).toNat))
        (trimInput (exceedingOf val st) st)
    else
      some (classifyApply val st)

/-- `FormModel.parseInput` (form.ts:84-102). A budget of `val.length + 2` covers
every terminating run of the JS recursion (each recursive call with a non-empty
`val` strictly shortens it, and a recursive call with an empty `val` never
terminates), so `none` is returned exactly when the JS code diverges. -/
def parseInput (val : List Char) (st : FormState) : Option FormState :=
  parseInputF (val.length + 2) val st

/-- JS `str.split(sep)` for a one-character separator:
`"".split(sep)` is `[""]`; every occurrence of `sep` closes a field. -/
def jsSplit (sep : Char) : List Char → List (List Char)
  | [] => [[]]
  | c :: rest =>
    if c = sep then [] :: jsSplit sep rest
    else
      match jsSplit sep rest with
      | [] => [[c]]
      | l :: ls => (c :: l) :: ls

/-- `FormModel.lastBodyLine` (form.ts:120-123):
`const lines = this.body.split("\n"); return lines[lines.length - 1]`. -/
def lastBodyLine (body : List Char) : List Char :=
  (jsSplit '\n' body).getLastD []

/-- `FormModel.append` (form.ts:64-70): build the character from the code with
JS `String.fromCharCode` (which reduces the code modulo 2^16); if it is a
newline, call `view.terminateLine(this.parsedLines++)` — the view reads
`model.lastBodyLine()` before the body is extended — then `this.body += char`. -/
def append (code : Nat) (st : FormState) : FormState :=
  if Char.ofNat (code % 65536) = '\n' then
    {st with parsedLines := st.parsedLines + 1,
             viewEffects := st.viewEffects ++
               [ViewEffect.terminate st.parsedLines (lastBodyLine st.body)],
             body := st.body ++ [Char.ofNat (code % 65536)]}
  else
    {st with body := st.body ++ [Char.ofNat (code % 65536)]}

/-- `FormModel.backspace` (form.ts:73-76): `this.body = this.body.slice(0, -1)`. -/
def backspace (st : FormState) : FormState :=
  {st with body := st.body.dropLast}

/-- `FormModel.splice` (form.ts:79-81) calls
`this.spliceLine(this.lastBodyLine(), msg)`.
Modelled from the spec: `spliceLine` (declared at form.ts:60) is defined
outside `src/`; per its signature `(line: string, msg: SpliceResponse) => string`
it rewrites the current line from the last body line and the splice message,
and per spec invariant I3 it leaves `ParsedLineCount` unchanged. -/
def splice {α : Type} (spliceLineF : List Char → α → List Char) (msg : α)
    (st : FormState) : FormState :=
  {st with line := spliceLineF (lastBodyLine st.body) msg}

/-- The composition counters set up by the `OPFormModel` constructor
(form.ts:45: `this.bodyLength = this.parsedLines = 0`); `line` and `body`
are whatever was inherited from the copied attributes. -/
def initFormState (line body : List Char) : FormState :=
  {line := line, bodyLength := 0, body := body, parsedLines := 0,
   sent := [], viewEffects := []}

/-- A sequence of composition steps: run `parseInput` on each successive raw
input value, propagating divergence. -/
def runInputs : List (List Char) → FormState → Option FormState
  | [], st => some st
  | v :: vs, st =>
    match parseInput v st with
    | none => none
    | some st' => runInputs vs st'

/-- Closed form of one `parseInput` step (valid whenever `bodyLength ≤ 2000`,
see `parseInput_eq_parseStep`): at most one truncate-and-retry round happens,
after which the classification half runs. -/
def parseStep (val : List Char) (st : FormState) : FormState :=
  if 0 < exceedingOf val st then
    classifyApply (val.take (val.length - (exceedingOf val st).toNat))
      (trimInput (exceedingOf val st) st)
  else classifyApply val st

/-- The state consistency maintained by composition: the committed line never
outgrows the body-length counter, and the counter respects the 2000 cap. -/
def Inv (st : FormState) : Prop :=
  (st.line.length : Int) ≤ st.bodyLength ∧ st.bodyLength ≤ 2000

theorem trimInput_line (n : Int) (st : FormState) : (trimInput n st).line = st.line := rfl

theorem trimInput_bodyLength (n : Int) (st : FormState) :
    (trimInput n st).bodyLength = st.bodyLength := rfl

theorem trimInput_parsedLines (n : Int) (st : FormState) :
    (trimInput n st).parsedLines = st.parsedLines := rfl

theorem parseInputF_of_le (f : Nat) (val : List Char) (st : FormState)
    (h : exceedingOf val st ≤ 0) :
    parseInputF (f + 1) val st = some (classifyApply val st) := by
  simp only [parseInputF, if_neg (not_lt.mpr h)]

theorem parseInputF_of_pos (f : Nat) (val : List Char) (st : FormState)
    (h : 0 < exceedingOf val st) :
    parseInputF (f + 1) val st
      = parseInputF f (val.take (val.length - (exceedingOf val st).toNat))
          (trimInput (exceedingOf val st) st) := by
  simp only [parseInputF, if_pos h]

/-- After one truncation round the recomputed excess is never positive,
provided the counter was within the 2000 cap. -/
theorem exceeding_after_trunc (val : List Char) (st : FormState)
    (hpos : 0 < exceedingOf val st) (hB : st.bodyLength ≤ 2000) :
    exceedingOf (val.take (val.length - (exceedingOf val st).toNat))
      (trimInput (exceedingOf val st) st) ≤ 0 := by
  unfold exceedingOf trimInput at *
  simp only [List.length_take] at *
  omega

theorem parseInputF_two (val : List Char) (st : FormState)
    (hB : st.bodyLength ≤ 2000) (f : Nat) :
    parseInputF (f + 2) val st = some (parseStep val st) := by
  by_cases hpos : 0 < exceedingOf val st
  · have h2 := exceeding_after_trunc val st hpos hB
    calc parseInputF (f + 1 + 1) val st
        = parseInputF (f + 1)
            (val.take (val.length - (exceedingOf val st).toNat))
            (trimInput (exceedingOf val st) st) := parseInputF_of_pos (f + 1) val st hpos
      _ = some (classifyApply (val.take (val.length - (exceedingOf val st).toNat))
            (trimInput (exceedingOf val st) st)) := parseInputF_of_le f _ _ h2
      _ = some (parseStep val st) := by rw [parseStep, if_pos hpos]
  · rw [show f + 2 = (f + 1) + 1 from rfl,
      parseInputF_of_le (f + 1) val st (not_lt.mp hpos), parseStep, if_neg hpos]

theorem parseInput_eq_parseStep (val : List Char) (st : FormState)
    (hB : st.bodyLength ≤ 2000) :
    parseInput val st = some (parseStep val st) :=
  parseInputF_two val st hB val.length

theorem classifyApply_concat (st : FormState) (c : Char) :
    classifyApply (st.line ++ [c]) st = commitChar [c] st := by
  unfold classifyApply
  rw [if_pos]
  · congr 1
    have h : (st.line ++ [c]).length - 1 = st.line.length := by
      simp
    rw [h, List.drop_left]
  · constructor
    · simp
    · exact List.dropLast_concat

theorem classifyApply_drop (st : FormState) (s : List Char) (c : Char)
    (h : st.line = s ++ [c]) :
    classifyApply s st = commitBackspace st := by
  unfold classifyApply
  rw [if_neg, if_pos]
  · rw [h]
    constructor
    · simp
    · exact List.dropLast_concat
  · rw [h]
    intro hcon
    have := hcon.1
    simp at this

theorem classifyApply_irregular (val : List Char) (st : FormState)
    (h1 : ¬((val.length : Int) - st.line.length = 1 ∧ val.dropLast = st.line))
    (h2 : ¬((val.length : Int) - st.line.length = -1 ∧ st.line.dropLast = val)) :
    classifyApply val st = st := by
  unfold classifyApply
  rw [if_neg h1, if_neg h2]

theorem classifyApply_inv (val : List Char) (st : FormState)
    (hInv : Inv st) (he : exceedingOf val st ≤ 0) :
    Inv (classifyApply val st) := by
  obtain ⟨hlen, hB⟩ := hInv
  unfold exceedingOf at he
  unfold classifyApply
  split
  next h =>
    obtain ⟨hd, -⟩ := h
    unfold Inv commitChar
    simp only [List.length_append, List.length_drop]
    constructor
    · push_cast
      omega
    · omega
  next =>
    split
    next h =>
      obtain ⟨hd, -⟩ := h
      unfold Inv commitBackspace
      simp only [List.length_dropLast]
      constructor
      · omega
      · omega
    next => exact ⟨hlen, hB⟩

theorem Inv_trimInput (n : Int) (st : FormState) : Inv (trimInput n st) ↔ Inv st :=
  Iff.rfl

theorem parseStep_inv (val : List Char) (st : FormState) (hInv : Inv st) :
    Inv (parseStep val st) := by
  unfold parseStep
  split
  next hpos =>
    exact classifyApply_inv _ _ ((Inv_trimInput _ _).mpr hInv)
      (exceeding_after_trunc val st hpos hInv.2)
  next hpos =>
    exact classifyApply_inv _ _ hInv (not_lt.mp hpos)

theorem classifyApply_parsedLines (val : List Char) (st : FormState) :
    (classifyApply val st).parsedLines = st.parsedLines := by
  unfold classifyApply commitChar commitBackspace
  split
  · rfl
  · split <;> rfl

theorem parseStep_parsedLines (val : List Char) (st : FormState) :
    (parseStep val st).parsedLines = st.parsedLines := by
  unfold parseStep
  split <;> simp [classifyApply_parsedLines, trimInput_parsedLines]

theorem parseInputF_parsedLines :
    ∀ (f : Nat) (val : List Char) (st st' : FormState),
      parseInputF f val st = some st' → st'.parsedLines = st.parsedLines := by
  intro f
  induction f with
  | zero => intro val st st' h; simp [parseInputF] at h
  | succ f ih =>
    intro val st st' h
    by_cases hpos : 0 < exceedingOf val st
    · rw [parseInputF_of_pos f val st hpos] at h
      rw [ih _ _ _ h, trimInput_parsedLines]
    · rw [parseInputF_of_le f val st (not_lt.mp hpos)] at h
      cases h
      exact classifyApply_parsedLines val st

theorem runInputs_inv :
    ∀ (vals : List (List Char)) (st : FormState), Inv st →
      ∃ st', runInputs vals st = some st' ∧ Inv st' := by
  intro vals
  induction vals with
  | nil => intro st h; exact ⟨st, rfl, h⟩
  | cons v vs ih =>
    intro st h
    obtain ⟨st', hrun, hinv'⟩ := ih (parseStep v st) (parseStep_inv v st h)
    exact ⟨st', by rw [runInputs, parseInput_eq_parseStep v st h.2]; exact hrun, hinv'⟩

theorem getLastD_cons_of_ne_nil {α : Type} (x : α) (S : List α) (hS : S ≠ []) (d d' : α) :
    (x :: S).getLastD d = S.getLastD d' := by
  obtain ⟨s, ss, rfl⟩ := List.exists_cons_of_ne_nil hS
  rw [List.getLastD_eq_getLast?, List.getLastD_eq_getLast?, List.getLast?_cons_cons,
      List.getLast?_eq_getLast _ (by simp)]
  rfl

theorem jsSplit_ne_nil (sep : Char) : ∀ l : List Char, jsSplit sep l ≠ [] := by
  intro l
  induction l with
  | nil => simp [jsSplit]
  | cons c rest ih =>
    rw [jsSplit]
    split
    · simp
    · split
      · simp
      · simp

theorem jsSplit_cons_ne (sep c : Char) (rest : List Char) (h : ¬c = sep)
    (l : List Char) (ls : List (List Char)) (hS : jsSplit sep rest = l :: ls) :
    jsSplit sep (c :: rest) = (c :: l) :: ls := by
  rw [jsSplit, if_neg h, hS]

theorem jsSplit_of_not_mem (sep : Char) :
    ∀ l : List Char, sep ∉ l → jsSplit sep l = [l] := by
  intro l
  induction l with
  | nil => intro; rfl
  | cons c rest ih =>
    intro h
    rw [jsSplit_cons_ne sep c rest (by simp at h; exact fun he => h.1 he.symm) rest []
      (ih (by simp at h; exact h.2))]

theorem jsSplit_len_of_mem (sep : Char) :
    ∀ l : List Char, sep ∈ l → 2 ≤ (jsSplit sep l).length := by
  intro l
  induction l with
  | nil => simp
  | cons c rest ih =>
    intro h
    by_cases hc : c = sep
    · rw [jsSplit, if_pos hc]
      have := jsSplit_ne_nil sep rest
      simp only [List.length_cons]
      cases hrest : jsSplit sep rest with
      | nil => exact absurd hrest this
      | cons a as => simp
    · have hmem : sep ∈ rest := by
        rcases List.mem_cons.mp h with h1 | h2
        · exact absurd h1.symm hc
        · exact h2
      obtain ⟨l', ls', hS⟩ := List.exists_cons_of_ne_nil (jsSplit_ne_nil sep rest)
      rw [jsSplit_cons_ne sep c rest hc l' ls' hS]
      have := ih hmem
      rw [hS] at this
      simpa using this

theorem takeWhile_concat_false {p : Char → Bool} (a : Char) (h : p a = false) :
    ∀ xs : List Char, (xs ++ [a]).takeWhile p = xs.takeWhile p := by
  intro xs
  induction xs with
  | nil => simp [List.takeWhile_cons, h]
  | cons x xs ih =>
    rw [List.cons_append, List.takeWhile_cons, List.takeWhile_cons]
    split
    · rw [ih]
    · rfl

theorem takeWhile_append_of_break {p : Char → Bool} (ys : List Char) :
    ∀ xs : List Char, (∃ x ∈ xs, p x = false) →
      (xs ++ ys).takeWhile p = xs.takeWhile p := by
  intro xs
  induction xs with
  | nil => simp
  | cons x xs ih =>
    intro h
    rw [List.cons_append, List.takeWhile_cons, List.takeWhile_cons]
    split
    next hx =>
      obtain ⟨z, hz, hpz⟩ := h
      rcases List.mem_cons.mp hz with h1 | h2
      · subst h1; rw [hx] at hpz; cases hpz
      · rw [ih ⟨z, h2, hpz⟩]
    next => rfl

/-- `lastBodyLine` computes the suffix of the body after its final newline. -/
theorem lastBodyLine_suffix :
    ∀ body : List Char,
      lastBodyLine body = (body.reverse.takeWhile (fun c => c != '\n')).reverse := by
  intro body
  induction body with
  | nil => rfl
  | cons c rest ih =>
    by_cases hc : c = '\n'
    · subst hc
      rw [lastBodyLine, jsSplit, if_pos rfl,
          getLastD_cons_of_ne_nil _ _ (jsSplit_ne_nil '\n' rest) [] []]
      rw [List.reverse_cons, takeWhile_concat_false '\n' (by simp) rest.reverse]
      exact ih
    · obtain ⟨l, ls, hS⟩ := List.exists_cons_of_ne_nil (jsSplit_ne_nil '\n' rest)
      rw [lastBodyLine, jsSplit_cons_ne '\n' c rest hc l ls hS]
      cases ls with
      | nil =>
        have hnm : '\n' ∉ rest := by
          intro hmem
          have := jsSplit_len_of_mem '\n' rest hmem
          rw [hS] at this
          simp at this
        have hl : l = rest := by
          have := jsSplit_of_not_mem '\n' rest hnm
          rw [hS] at this
          exact (List.cons.injEq _ _ _ _ ▸ this).1
        have hall : ∀ x ∈ (c :: rest).reverse, (fun c => c != '\n') x = true := by
          intro x hx
          rcases List.mem_reverse.mp hx |> List.mem_cons.mp with h1 | h2
          · subst h1; simpa using hc
          · simp
            intro hx'
            exact hnm (hx' ▸ h2)
        rw [List.takeWhile_eq_self_iff.mpr hall, List.reverse_reverse, hl]
        rfl
      | cons l2 ls2 =>
        rw [getLastD_cons_of_ne_nil _ _ (by simp) [] []]
        have hmem : '\n' ∈ rest := by
          by_contra hnm
          have := jsSplit_of_not_mem '\n' rest hnm
          rw [hS] at this
          simp at this
        rw [List.reverse_cons,
            takeWhile_append_of_break [c] rest.reverse
              ⟨'\n', List.mem_reverse.mpr hmem, by simp⟩]
        rw [lastBodyLine, hS, getLastD_cons_of_ne_nil _ _ (by simp) [] []] at ih
        exact ih

/-! ### Display → Composing transition (`OPFormModel` constructor, form.ts:28-49) -/

/-- A model attribute as seen by `extractAttrs` (form.ts:228-236): either
function-valued (behavioral, `typeof src[key] === "function"`) or a plain
data value. Values themselves are abstract (`Nat` identifiers). -/
inductive Attr where
  | func (v : Nat)
  | data (v : Nat)
  deriving DecidableEq, Repr

/-- `typeof src[key] === "function"`. -/
def Attr.isFunc : Attr → Bool
  | .func _ => true
  | .data _ => false

/-- `extractAttrs` (form.ts:228-236): copy every attribute whose value is not
a function, in enumeration order. A JS object is an association list with
unique keys; lookup returns the first match. -/
def extractAttrs (src : List (String × Attr)) : List (String × Attr) :=
  src.filter (fun kv => !kv.2.isFunc)

/-- A post model as stored in the global post registry. -/
structure PostM where
  attrs : List (String × Attr)
  deriving DecidableEq, Repr

/-- Modelled from the spec: the global post registry (`posts` from
`../../state`, outside `src/`), with the interface of §6:
`get(id) -> model` is function application, `replace(id, newModel)`
(used via `posts.addOP(this)` at form.ts:40) is `regSet`. -/
def regSet (reg : Nat → Option PostM) (id : Nat) (m : PostM) :
    Nat → Option PostM :=
  fun j => if j = id then some m else reg j

/-- DOM-side effects of the constructor, in program order:
`oldView.unbind()` (form.ts:34) and `oldView.el.replaceWith(postForm.el)`
(form.ts:43). -/
inductive DomEffect where
  | unbindOldView
  | replaceRootWithNew
  deriving DecidableEq, Repr

/-- The observable trace of a Display → Composing transition: the registry
snapshots at each observable point (before and after `posts.addOP`), the
freshly built Composing model, and the DOM effects in order. -/
structure TransitionTrace where
  snapshots : List (Nat → Option PostM)
  newModel : PostM
  domEffects : List DomEffect

/-- The `OPFormModel` constructor (form.ts:28-49): look up the old model,
unbind its view, build the new model from `extractAttrs(oldModel)`, register
it in place of the old model, and splice the new view's root element in place
of the old one. `none` models the crash when no model is registered under
`id` (`posts.get(id)` returns `undefined` and `oldModel.view` throws). -/
def opFormTransition (id : Nat) (reg : Nat → Option PostM) :
    Option TransitionTrace :=
  match reg id with
  | none => none
  | some old =>
    some { snapshots := [reg, regSet reg id ⟨extractAttrs old.attrs⟩],
           newModel := ⟨extractAttrs old.attrs⟩,
           domEffects := [DomEffect.unbindOldView, DomEffect.replaceRootWithNew] }

theorem lookup_extractAttrs (k : String) (a : Attr) (hf : a.isFunc = false) :
    ∀ src : List (String × Attr),
      src.lookup k = some a → (extractAttrs src).lookup k = some a := by
  intro src
  induction src with
  | nil => intro h; cases h
  | cons kv rest ih =>
    intro h
    by_cases hk : (k == kv.1) = true
    · simp only [List.lookup, hk] at h
      have ha : kv.2 = a := by simpa using h
      rw [extractAttrs, List.filter_cons, if_pos (by simp [ha, hf])]
      simp only [List.lookup, hk]
      rw [ha]
    · have hk' : (k == kv.1) = false := by simpa using hk
      simp only [List.lookup, hk'] at h
      rw [extractAttrs, List.filter_cons]
      split
      · simp only [List.lookup, hk']
        exact ih h
      · exact ih h

theorem extractAttrs_no_func (src : List (String × Attr)) :
    ∀ kv ∈ extractAttrs src, kv.2.isFunc = false := by
  intro kv hkv
  have := List.of_mem_filter hkv
  simpa using this

/-! ### Step-shape helper lemmas -/

theorem parseInput_append_char (st : FormState) (c : Char)
    (h : st.bodyLength + 1 ≤ 2000) :
    parseInput (st.line ++ [c]) st = some (commitChar [c] st) := by
  have he : exceedingOf (st.line ++ [c]) st ≤ 0 := by
    rw [exceedingOf]
    simp only [List.length_append, List.length_cons, List.length_nil]
    push_cast
    omega
  rw [parseInput, show (st.line ++ [c]).length + 2 = ((st.line ++ [c]).length + 1) + 1
    from rfl, parseInputF_of_le _ _ _ he, classifyApply_concat]

theorem parseInput_drop_char (st : FormState) (s : List Char) (c : Char)
    (hline : st.line = s ++ [c]) (h : st.bodyLength ≤ 2001) :
    parseInput s st = some (commitBackspace st) := by
  have he : exceedingOf s st ≤ 0 := by
    rw [exceedingOf, hline]
    simp only [List.length_append, List.length_cons, List.length_nil]
    push_cast
    omega
  rw [parseInput, show s.length + 2 = (s.length + 1) + 1 from rfl,
    parseInputF_of_le _ _ _ he, classifyApply_drop st s c hline]

/-! ### Claim theorems -/

/-- Concrete states used by witnesses and counterexamples. -/
def atCapState : FormState :=
  { line := [], bodyLength := 2000, body := [], parsedLines := 0,
    sent := [], viewEffects := [] }

def nearCapState : FormState :=
  { line := [], bodyLength := 1999, body := [], parsedLines := 0,
    sent := [], viewEffects := [] }

/-- C1: for every sequence of `parseInput` calls starting from a fresh form
(empty committed line, `bodyLength = 0`), the counter satisfies
`0 ≤ bodyLength ≤ 2000` after every step; and once at 2000, an update that
appends one character to the committed line is truncated: the view is told to
trim 1 character, the counter stays exactly 2000 (never 2001), and the line
and outgoing commands are untouched. -/
theorem bodyLength_invariant :
    (∀ st₀ : FormState, st₀.line = [] → st₀.bodyLength = 0 →
      ∀ vals, ∃ st', runInputs vals st₀ = some st' ∧
        0 ≤ st'.bodyLength ∧ st'.bodyLength ≤ 2000)
    ∧ (∀ (st : FormState) (c : Char), st.bodyLength = 2000 →
        parseInput (st.line ++ [c]) st = some (trimInput 1 st) ∧
        (trimInput 1 st).bodyLength = 2000 ∧ (trimInput 1 st).line = st.line ∧
        (trimInput 1 st).sent = st.sent) := by
  constructor
  · intro st₀ hline hB vals
    have hInv : Inv st₀ := by
      rw [Inv, hline, hB]
      norm_num
    obtain ⟨st', h1, h2⟩ := runInputs_inv vals st₀ hInv
    exact ⟨st', h1, le_trans (Int.natCast_nonneg _) h2.1, h2.2⟩
  · intro st c h2000
    have hB : st.bodyLength ≤ 2000 := le_of_eq h2000
    have he : exceedingOf (st.line ++ [c]) st = 1 := by
      rw [exceedingOf, h2000]
      simp
    have hps : parseStep (st.line ++ [c]) st = trimInput 1 st := by
      rw [parseStep, he, if_pos (by norm_num)]
      have hlen : (st.line ++ [c]).length - (1 : Int).toNat = st.line.length := by
        simp
      rw [hlen, List.take_left, classifyApply_irregular]
      · intro hcon
        have := hcon.1
        rw [trimInput_line] at this
        omega
      · intro hcon
        have := hcon.1
        rw [trimInput_line] at this
        omega
    exact ⟨by rw [parseInput_eq_parseStep _ _ hB, hps], h2000, rfl, rfl⟩

theorem bodyLength_invariant_witness :
    ∃ st', runInputs [['a']] (initFormState [] []) = some st' ∧
      0 ≤ st'.bodyLength ∧ st'.bodyLength ≤ 2000 :=
  bodyLength_invariant.1 (initFormState [] []) rfl rfl [['a']]

/-- C2 counterexample: at `bodyLength = 2000` an edit appending one character
to the committed line is NOT classified as an append: `parseInput` only trims
the input, the committed line stays `[]` (not `['a']`), the counter stays
2000 (not 2001), and no append command is sent. -/
theorem commit_roundtrip_cex :
    parseInput ['a'] atCapState = some (trimInput 1 atCapState) ∧
    (trimInput 1 atCapState).line = [] ∧
    (trimInput 1 atCapState).bodyLength = 2000 ∧
    (trimInput 1 atCapState).sent = [] ∧
    trimInput 1 atCapState ≠ commitChar ['a'] atCapState := by
  decide

/-- C2 (amended with the body-length preconditions): provided
`bodyLength + 1 ≤ 2000`, `parseInput (s ++ [c])` from committed line `s` is
classified as an append and applies `commitChar c` (line becomes `s ++ [c]`,
counter goes up by 1, an append command with `c`'s code point is sent);
provided `bodyLength ≤ 2001`, `parseInput s` from committed line `s ++ [c]`
is classified as a backspace and applies `commitBackspace` (line becomes `s`,
counter goes down by 1, a backspace command is sent); and under
`bodyLength + 1 ≤ 2000` the two are exact inverses on
(committed line, bodyLength). -/
theorem commit_roundtrip_amended :
    (∀ (st : FormState) (c : Char), st.bodyLength + 1 ≤ 2000 →
       parseInput (st.line ++ [c]) st = some (commitChar [c] st) ∧
       (commitChar [c] st).line = st.line ++ [c] ∧
       (commitChar [c] st).bodyLength = st.bodyLength + 1 ∧
       (commitChar [c] st).sent = st.sent ++ [Msg.append c.toNat])
    ∧ (∀ (st : FormState) (s : List Char) (c : Char),
        st.line = s ++ [c] → st.bodyLength ≤ 2001 →
        parseInput s st = some (commitBackspace st) ∧
        (commitBackspace st).line = s ∧
        (commitBackspace st).bodyLength = st.bodyLength - 1 ∧
        (commitBackspace st).sent = st.sent ++ [Msg.backspace])
    ∧ (∀ (st : FormState) (c : Char), st.bodyLength + 1 ≤ 2000 →
        ∃ st₁ st₂, parseInput (st.line ++ [c]) st = some st₁ ∧
          parseInput st.line st₁ = some st₂ ∧
          st₂.line = st.line ∧ st₂.bodyLength = st.bodyLength) := by
  refine ⟨?_, ?_, ?_⟩
  · intro st c h
    exact ⟨parseInput_append_char st c h, rfl, rfl, rfl⟩
  · intro st s c hline h
    refine ⟨parseInput_drop_char st s c hline h, ?_, rfl, rfl⟩
    rw [commitBackspace, hline]
    exact List.dropLast_concat
  · intro st c h
    refine ⟨commitChar [c] st, commitBackspace (commitChar [c] st),
      parseInput_append_char st c h, ?_, ?_, ?_⟩
    · exact parseInput_drop_char (commitChar [c] st) st.line c rfl
        (by simp only [commitChar]; omega)
    · rw [commitBackspace, commitChar]
      exact List.dropLast_concat
    · simp only [commitBackspace, commitChar]
      omega

theorem commit_roundtrip_witness :
    parseInput ((initFormState [] []).line ++ ['a']) (initFormState [] [])
        = some (commitChar ['a'] (initFormState [] [])) ∧
    (commitChar ['a'] (initFormState [] [])).line
        = (initFormState [] []).line ++ ['a'] ∧
    (commitChar ['a'] (initFormState [] [])).bodyLength
        = (initFormState [] []).bodyLength + 1 ∧
    (commitChar ['a'] (initFormState [] [])).sent
        = (initFormState [] []).sent ++ [Msg.append 'a'.toNat] :=
  commit_roundtrip_amended.1 (initFormState [] []) 'a' (by decide)

/-- C3: whenever `exceeding > 0`, `parseInput` first instructs the view to
drop the last `exceeding` characters and re-runs itself on the input with its
last `exceeding` characters removed; in particular starting at
`bodyLength = 1999`, appending "xy" in one update computes `exceeding = 1`,
commits only 'x' (code point 120), and ends with the counter at exactly
2000. -/
theorem overflow_truncation :
    (∀ (f : Nat) (val : List Char) (st : FormState), 0 < exceedingOf val st →
       parseInputF (f + 1) val st
         = parseInputF f (val.take (val.length - (exceedingOf val st).toNat))
             (trimInput (exceedingOf val st) st))
    ∧ (∀ st : FormState, st.bodyLength = 1999 →
        exceedingOf (st.line ++ ['x', 'y']) st = 1 ∧
        parseInput (st.line ++ ['x', 'y']) st
          = some {st with line := st.line ++ ['x'],
                          bodyLength := 2000,
                          sent := st.sent ++ [Msg.append 120],
                          viewEffects := st.viewEffects ++ [ViewEffect.trim 1]}) := by
  constructor
  · exact fun f val st h => parseInputF_of_pos f val st h
  · intro st h1999
    have he : exceedingOf (st.line ++ ['x', 'y']) st = 1 := by
      rw [exceedingOf, h1999]
      simp
    refine ⟨he, ?_⟩
    have hB : st.bodyLength ≤ 2000 := by omega
    rw [parseInput_eq_parseStep _ _ hB, parseStep, he, if_pos (by norm_num)]
    have hlen : (st.line ++ ['x', 'y']).length - (1 : Int).toNat
        = st.line.length + 1 := by
      simp
    rw [hlen]
    have htake : (st.line ++ ['x', 'y']).take (st.line.length + 1)
        = st.line ++ ['x'] := by
      rw [List.take_append_eq_append_take]
      simp
    rw [htake]
    have hca : classifyApply (st.line ++ ['x']) (trimInput 1 st)
        = commitChar ['x'] (trimInput 1 st) := by
      have h := classifyApply_concat (trimInput 1 st) 'x'
      rw [trimInput_line] at h
      exact h
    rw [hca]
    have hx : ('x').toNat = 120 := rfl
    simp [commitChar, trimInput, charCodeAt0, h1999, hx]

theorem overflow_truncation_witness :
    (parseInputF 2 ['a'] atCapState
       = parseInputF 1 (['a'].take (['a'].length - (exceedingOf ['a'] atCapState).toNat))
           (trimInput (exceedingOf ['a'] atCapState) atCapState))
    ∧ (exceedingOf (nearCapState.line ++ ['x', 'y']) nearCapState = 1 ∧
       parseInput (nearCapState.line ++ ['x', 'y']) nearCapState
         = some {nearCapState with
                   line := nearCapState.line ++ ['x'],
                   bodyLength := 2000,
                   sent := nearCapState.sent ++ [Msg.append 120],
                   viewEffects := nearCapState.viewEffects ++ [ViewEffect.trim 1]}) :=
  ⟨overflow_truncation.1 1 ['a'] atCapState (by decide),
   overflow_truncation.2 nearCapState rfl⟩

/-- C4: appending a newline (code 10) at `parsedLines = 0` terminates the
line: `parsedLines` becomes 1, the pre-increment value 0 is the positional
index handed to the view, and the view receives the completed line text
(`lastBodyLine` of the body as it stood when the newline arrived) for parsing
and placeholder replacement; only then is the newline added to the body. -/
theorem first_newline_termination (st : FormState) (h : st.parsedLines = 0) :
    append 10 st = {st with parsedLines := 1,
                            body := st.body ++ ['\n'],
                            viewEffects := st.viewEffects ++
                              [ViewEffect.terminate 0 (lastBodyLine st.body)]} := by
  have hc : Char.ofNat (10 % 65536) = '\n' := by decide
  rw [append, if_pos hc, hc, h]

theorem first_newline_termination_witness :
    append 10 (initFormState ['a'] ['a'])
      = {initFormState ['a'] ['a'] with
           parsedLines := 1,
           body := (initFormState ['a'] ['a']).body ++ ['\n'],
           viewEffects := (initFormState ['a'] ['a']).viewEffects ++
             [ViewEffect.terminate 0 (lastBodyLine (initFormState ['a'] ['a']).body)]} :=
  first_newline_termination (initFormState ['a'] ['a']) rfl

/-- C5: when the pre-computed excess is ≤ 0 and the edit is neither a pure
single-character append nor a pure single-character removal, `parseInput`
emits nothing and leaves the whole state (committed line, counter, sent
commands, view effects) unchanged. -/
theorem irregular_noop (val : List Char) (st : FormState)
    (he : exceedingOf val st ≤ 0)
    (h1 : ¬((val.length : Int) - st.line.length = 1 ∧ val.dropLast = st.line))
    (h2 : ¬((val.length : Int) - st.line.length = -1 ∧ st.line.dropLast = val)) :
    parseInput val st = some st := by
  rw [parseInput, show val.length + 2 = (val.length + 1) + 1 from rfl,
    parseInputF_of_le _ _ _ he, classifyApply_irregular val st h1 h2]

theorem irregular_noop_witness :
    parseInput ['x', 'y', 'z'] (initFormState [] []) = some (initFormState [] []) :=
  irregular_noop ['x', 'y', 'z'] (initFormState [] []) (by decide) (by decide) (by decide)

/-- C6: `parsedLines` starts at 0 (constructor, form.ts:45), is incremented by
exactly 1 when `append` receives a newline character (and in particular for
code 10), and is left unchanged by `append` of any other character and by
every other engine operation: `parseInput`, `commitChar`, `commitBackspace`,
`backspace` and `splice`. -/
theorem parsedLines_monotone :
    (∀ line body : List Char, (initFormState line body).parsedLines = 0)
    ∧ (∀ (code : Nat) (st : FormState),
        (append code st).parsedLines
          = if Char.ofNat (code % 65536) = '\n' then st.parsedLines + 1
            else st.parsedLines)
    ∧ (∀ st : FormState, (append 10 st).parsedLines = st.parsedLines + 1)
    ∧ (∀ (val : List Char) (st st' : FormState),
        parseInput val st = some st' → st'.parsedLines = st.parsedLines)
    ∧ (∀ (char : List Char) (st : FormState),
        (commitChar char st).parsedLines = st.parsedLines)
    ∧ (∀ st : FormState, (commitBackspace st).parsedLines = st.parsedLines)
    ∧ (∀ st : FormState, (backspace st).parsedLines = st.parsedLines)
    ∧ (∀ (α : Type) (f : List Char → α → List Char) (msg : α) (st : FormState),
        (splice f msg st).parsedLines = st.parsedLines) := by
  refine ⟨fun _ _ => rfl, ?_, ?_, ?_, fun _ _ => rfl, fun _ => rfl, fun _ => rfl,
    fun _ _ _ _ => rfl⟩
  · intro code st
    rw [append]
    split
    next => rfl
    next => rfl
  · intro st
    rw [append, if_pos (by decide)]
  · exact fun val st st' h => parseInputF_parsedLines _ val st st' h

theorem parsedLines_monotone_witness :
    (⟨['a'], 1, [], 0, [Msg.append 97], []⟩ : FormState).parsedLines
      = (initFormState [] []).parsedLines :=
  parsedLines_monotone.2.2.2.1 ['a'] (initFormState [] [])
    ⟨['a'], 1, [], 0, [Msg.append 97], []⟩ (by decide)

/-- Concrete registry data used by the C7 witness. -/
def demoOld : PostM :=
  ⟨[("id", Attr.data 1), ("time", Attr.data 2), ("view", Attr.func 3)]⟩

def demoReg : Nat → Option PostM :=
  fun j => if j = 1 then some demoOld else none

/-- C7: a Display → Composing transition for a registered post id builds the
new model from copies of every non-function attribute of the old model (and
of nothing else), registers it in place of the old model, and replaces the
old view's root element after unbinding the old view; every registry snapshot
of the transition resolves the id to either the old or the new model (never a
missing entry), and after registration the lookup yields the new model. -/
theorem display_swap (reg : Nat → Option PostM) (id : Nat) (old : PostM)
    (h : reg id = some old) :
    opFormTransition id reg
      = some { snapshots := [reg, regSet reg id ⟨extractAttrs old.attrs⟩],
               newModel := ⟨extractAttrs old.attrs⟩,
               domEffects := [DomEffect.unbindOldView, DomEffect.replaceRootWithNew] }
    ∧ (∀ (k : String) (a : Attr), old.attrs.lookup k = some a → a.isFunc = false →
        (extractAttrs old.attrs).lookup k = some a)
    ∧ (∀ kv ∈ extractAttrs old.attrs, kv.2.isFunc = false)
    ∧ (∀ r ∈ [reg, regSet reg id ⟨extractAttrs old.attrs⟩],
        r id = some old ∨ r id = some ⟨extractAttrs old.attrs⟩)
    ∧ (∀ r ∈ [reg, regSet reg id ⟨extractAttrs old.attrs⟩], r id ≠ none)
    ∧ regSet reg id ⟨extractAttrs old.attrs⟩ id = some ⟨extractAttrs old.attrs⟩ := by
  have hset : regSet reg id ⟨extractAttrs old.attrs⟩ id
      = some ⟨extractAttrs old.attrs⟩ := by
    rw [regSet, if_pos rfl]
  refine ⟨?_, fun k a hk hf => lookup_extractAttrs k a hf old.attrs hk,
    extractAttrs_no_func old.attrs, ?_, ?_, hset⟩
  · rw [opFormTransition, h]
  · intro r hr
    rcases List.mem_cons.mp hr with h1 | h2
    · subst h1
      exact Or.inl h
    · rw [List.mem_singleton.mp h2, hset]
      exact Or.inr rfl
  · intro r hr
    rcases List.mem_cons.mp hr with h1 | h2
    · subst h1
      rw [h]
      exact Option.some_ne_none old
    · rw [List.mem_singleton.mp h2, hset]
      exact Option.some_ne_none _

theorem display_swap_witness :
    opFormTransition 1 demoReg
      = some { snapshots := [demoReg, regSet demoReg 1 ⟨extractAttrs demoOld.attrs⟩],
               newModel := ⟨extractAttrs demoOld.attrs⟩,
               domEffects := [DomEffect.unbindOldView, DomEffect.replaceRootWithNew] }
    ∧ (∀ (k : String) (a : Attr), demoOld.attrs.lookup k = some a → a.isFunc = false →
        (extractAttrs demoOld.attrs).lookup k = some a)
    ∧ (∀ kv ∈ extractAttrs demoOld.attrs, kv.2.isFunc = false)
    ∧ (∀ r ∈ [demoReg, regSet demoReg 1 ⟨extractAttrs demoOld.attrs⟩],
        r 1 = some demoOld ∨ r 1 = some ⟨extractAttrs demoOld.attrs⟩)
    ∧ (∀ r ∈ [demoReg, regSet demoReg 1 ⟨extractAttrs demoOld.attrs⟩], r 1 ≠ none)
    ∧ regSet demoReg 1 ⟨extractAttrs demoOld.attrs⟩ 1 = some ⟨extractAttrs demoOld.attrs⟩ :=
  display_swap demoReg 1 demoOld rfl

/-- C8: under `0 ≤ bodyLength ≤ 2000`, `parseInput` terminates with recursion
depth at most 1: a budget of 2 (one top-level run plus at most one
truncate-and-retry round) already yields the final answer, and that answer is
an actual result, not divergence. -/
theorem parse_depth_bounded (val : List Char) (st : FormState)
    (_h0 : 0 ≤ st.bodyLength) (h1 : st.bodyLength ≤ 2000) :
    (∀ f : Nat, parseInputF (f + 2) val st = parseInputF 2 val st)
    ∧ (parseInputF 2 val st).isSome = true := by
  have h2 : parseInputF 2 val st = some (parseStep val st) := parseInputF_two val st h1 0
  constructor
  · intro f
    rw [parseInputF_two val st h1 f, h2]
  · rw [h2]
    rfl

theorem parse_depth_bounded_witness :
    parseInputF 7 ['a', 'b', 'c'] (initFormState [] [])
        = parseInputF 2 ['a', 'b', 'c'] (initFormState [] [])
    ∧ (parseInputF 2 ['a', 'b', 'c'] (initFormState [] [])).isSome = true :=
  ⟨(parse_depth_bounded ['a', 'b', 'c'] (initFormState [] []) (by decide) (by decide)).1 5,
   (parse_depth_bounded ['a', 'b', 'c'] (initFormState [] []) (by decide) (by decide)).2⟩

/-- C9: `lastBodyLine` is total — splitting on newline always yields at least
one element — and returns the suffix of the body after its final newline: the
whole body when it has no newline, and the empty string when the body is
empty or ends in a newline. -/
theorem lastBodyLine_total :
    (∀ body : List Char, jsSplit '\n' body ≠ [])
    ∧ (∀ body : List Char,
        lastBodyLine body = (body.reverse.takeWhile (fun c => c != '\n')).reverse)
    ∧ (∀ body : List Char, '\n' ∉ body → lastBodyLine body = body)
    ∧ lastBodyLine [] = []
    ∧ (∀ body : List Char, lastBodyLine (body ++ ['\n']) = []) := by
  refine ⟨jsSplit_ne_nil '\n', lastBodyLine_suffix, ?_, rfl, ?_⟩
  · intro body h
    rw [lastBodyLine_suffix body, List.takeWhile_eq_self_iff.mpr, List.reverse_reverse]
    intro x hx
    simp only [bne_iff_ne, ne_eq]
    intro hx'
    exact h (hx' ▸ List.mem_reverse.mp hx)
  · intro body
    rw [lastBodyLine_suffix, List.reverse_append]
    simp [List.takeWhile_cons]

theorem lastBodyLine_total_witness :
    lastBodyLine ['a', 'b'] = ['a', 'b'] ∧ lastBodyLine (['a'] ++ ['\n']) = [] :=
  ⟨lastBodyLine_total.2.2.1 ['a', 'b'] (by decide), lastBodyLine_total.2.2.2.2 ['a']⟩

/-- C10: a locally typed newline goes through the ordinary append path: with
`bodyLength + 1 ≤ 2000`, `parseInput (s ++ "\n")` from committed line `s`
calls `commitChar "\n"`, so the committed line keeps the trailing newline,
the counter (which the newline counts against) goes up by 1, and an append
command with code point 10 is sent. -/
theorem newline_plain_append (st : FormState) (h : st.bodyLength + 1 ≤ 2000) :
    parseInput (st.line ++ ['\n']) st = some (commitChar ['\n'] st)
    ∧ (commitChar ['\n'] st).line = st.line ++ ['\n']
    ∧ (commitChar ['\n'] st).bodyLength = st.bodyLength + 1
    ∧ (commitChar ['\n'] st).sent = st.sent ++ [Msg.append 10] :=
  ⟨parseInput_append_char st '\n' h, rfl, rfl, rfl⟩

theorem newline_plain_append_witness :
    parseInput ((initFormState [] []).line ++ ['\n']) (initFormState [] [])
        = some (commitChar ['\n'] (initFormState [] []))
    ∧ (commitChar ['\n'] (initFormState [] [])).line
        = (initFormState [] []).line ++ ['\n']
    ∧ (commitChar ['\n'] (initFormState [] [])).bodyLength
        = (initFormState [] []).bodyLength + 1
    ∧ (commitChar ['\n'] (initFormState [] [])).sent
        = (initFormState [] []).sent ++ [Msg.append 10] :=
  newline_plain_append (initFormState [] []) (by decide)

end Shami
